import Mathlib

/-!
# Verification of the `AnthropicSecretsDetector` plugin
  (`scripts/detect-secrets/plugins.py`)

The plugin is a denylist of five compiled regular expressions together with a
constant secret-type label, consumed by a regex-driven scanning engine.  The
five regexes use only a small fragment of regex syntax: literal characters,
one-character classes, `[...]?`, `[...]*` and `[...]{n,}`.  We embed exactly
that fragment: an `Atom` language, a backtracking matcher `matchAtoms` with
the greedy preference order of the Python `re` engine, and a `findall`-style
scanner (leftmost match, continue after the match end, advance one position
after an empty match).

Character classes are modelled over ASCII (`\s` in Python additionally
matches non-ASCII Unicode whitespace; no claim depends on non-ASCII input).
`re.IGNORECASE` is applied to literal characters by case-folding both sides;
every character class occurring in this denylist is closed under ASCII case
(`[A-Za-z0-9_-]`, `[A-Za-z0-9]`, `['"\s]`, `[:=]`, `[_-]`), so the flag is a
no-op on classes and is not applied there.
-/

namespace SecretsDetector

/-- `secret_type = 'API Credentials'` from the source class. -/
def secret_type : String := "API Credentials"

/-- Character-class `[A-Z]`. -/
def isUpperAZ (c : Char) : Bool := 'A' ≤ c && c ≤ 'Z'

/-- Character-class `[a-z]`. -/
def isLowerAZ (c : Char) : Bool := 'a' ≤ c && c ≤ 'z'

/-- Character-class `[0-9]`. -/
def isDigit09 (c : Char) : Bool := '0' ≤ c && c ≤ '9'

/-- Character-class `[A-Za-z0-9]` (patterns 2 and 3). -/
def alnumClass (c : Char) : Bool := isUpperAZ c || isLowerAZ c || isDigit09 c

/-- Character-class `[A-Za-z0-9_-]` (patterns 1, 4 and 5). -/
def wordDashClass (c : Char) : Bool := alnumClass c || c == '_' || c == '-'

/-- Character-class `['"\s]` (patterns 4 and 5), with `\s` taken over ASCII. -/
def quoteSpaceClass (c : Char) : Bool :=
  c == '\'' || c == '"' || c == ' ' || c == '\t' || c == '\n' ||
  c == '\r' || c == '\x0b' || c == '\x0c'

/-- Character-class `[:=]` (patterns 4 and 5). -/
def sepClass (c : Char) : Bool := c == ':' || c == '='

/-- Character-class `[_-]` (patterns 4 and 5). -/
def underscoreDashClass (c : Char) : Bool := c == '_' || c == '-'

/-- One element of the regex fragment used by the denylist: a literal
character (subject to `IGNORECASE`), a one-character class, `[...]?`,
`[...]*` or `[...]{n,}`. -/
inductive Atom where
  | lit  (a : Char)
  | cls  (p : Char → Bool)
  | opt  (p : Char → Bool)
  | star (p : Char → Bool)
  | rep  (p : Char → Bool) (n : Nat)

/-- A literal string, as a sequence of literal-character atoms. -/
def lits (s : String) : List Atom := s.data.map Atom.lit

/-- Literal-character matching: exact without `IGNORECASE`, case-folded
with it (Python lowercases the pattern character and the input character). -/
def litMatch (ic : Bool) (a c : Char) : Bool :=
  if ic then c.toLower == a.toLower else c == a

/-- The consumption amounts a greedy `[...]*` or `[...]{n,}` tries, in the
backtracking order of the `re` engine: `m, m-1, ..., lo` where `m` is the
maximal run. -/
def descList (m lo : Nat) : List Nat := (List.range (m + 1 - lo)).map (fun j => m - j)

/-- Backtracking driver: try the continuation `f` on `s` with each drop
amount in `ks` in order, returning the first success. -/
def firstSome (f : List Char → Option (List Char)) (s : List Char) (ks : List Nat) :
    Option (List Char) :=
  (ks.filterMap (fun k => f (List.drop k s))).head?

/-- Match a sequence of atoms against a prefix of `s`, returning the
remaining suffix of the first match in the `re` engine's preference order
(greedy quantifiers, full backtracking). -/
def matchAtoms (ic : Bool) : List Atom → List Char → Option (List Char)
  | [] => fun s => some s
  | Atom.lit a :: as => fun s =>
      match s with
      | [] => none
      | c :: rest => if litMatch ic a c then matchAtoms ic as rest else none
  | Atom.cls p :: as => fun s =>
      match s with
      | [] => none
      | c :: rest => if p c then matchAtoms ic as rest else none
  | Atom.opt p :: as => fun s =>
      match s with
      | [] => matchAtoms ic as []
      | c :: rest =>
        if p c then
          match matchAtoms ic as rest with
          | some r => some r
          | none => matchAtoms ic as (c :: rest)
        else matchAtoms ic as (c :: rest)
  | Atom.star p :: as => fun s =>
      firstSome (matchAtoms ic as) s (descList (s.takeWhile p).length 0)
  | Atom.rep p n :: as => fun s =>
      if n ≤ (s.takeWhile p).length then
        firstSome (matchAtoms ic as) s (descList (s.takeWhile p).length n)
      else none

/-- A compiled pattern: the atom sequence and its `re.IGNORECASE` flag. -/
structure Pattern where
  atoms : List Atom
  ignoreCase : Bool

/-- `re.compile(r'sk-ant-api03-[A-Za-z0-9_-]{95,}')` — pattern 1. -/
def anthropicKeyPattern : Pattern :=
  ⟨lits "sk-ant-api03-" ++ [Atom.rep wordDashClass 95], false⟩

/-- `re.compile(r'sk-[A-Za-z0-9]{48,}')` — pattern 2. -/
def skKeyPattern : Pattern :=
  ⟨lits "sk-" ++ [Atom.rep alnumClass 48], false⟩

/-- `re.compile(r'pa-[A-Za-z0-9]{48,}')` — pattern 3. -/
def paKeyPattern : Pattern :=
  ⟨lits "pa-" ++ [Atom.rep alnumClass 48], false⟩

/-- `re.compile(r'api[_-]?key[\'"\s]*[:=][\'"\s]*[A-Za-z0-9_\-]{20,}', re.IGNORECASE)`
— pattern 4. -/
def apiKeyPattern : Pattern :=
  ⟨lits "api" ++ [Atom.opt underscoreDashClass] ++ lits "key" ++
    [Atom.star quoteSpaceClass, Atom.cls sepClass, Atom.star quoteSpaceClass,
     Atom.rep wordDashClass 20], true⟩

/-- `re.compile(r'apikey[\'"\s]*[:=][\'"\s]*[A-Za-z0-9_\-]{20,}', re.IGNORECASE)`
— pattern 5. -/
def apikeyPattern : Pattern :=
  ⟨lits "apikey" ++
    [Atom.star quoteSpaceClass, Atom.cls sepClass, Atom.star quoteSpaceClass,
     Atom.rep wordDashClass 20], true⟩

/-- The `denylist` list of the source class, in source order. -/
def denylist : List Pattern :=
  [anthropicKeyPattern, skKeyPattern, paKeyPattern, apiKeyPattern, apikeyPattern]

/-- One reported match: the pattern's position in the denylist, the match
offset, the matched text, and the constant secret-type label. -/
structure Finding where
  patternIdx : Nat
  offset : Nat
  text : List Char
  secretType : String
deriving DecidableEq, Repr

/-- Modelled from the spec: the host framework's per-pattern scan
(`findall` semantics — leftmost match, continue scanning after the match
end, advance one position after an empty match).  `fuel` bounds the number
of scanning steps; `s.length + 1` steps always suffice. -/
def scanFuel (ic : Bool) (atoms : List Atom) : Nat → Nat → List Char → List (Nat × List Char)
  | 0, _, _ => []
  | fuel + 1, off, s =>
    match matchAtoms ic atoms s with
    | none =>
      match s with
      | [] => []
      | _ :: rest => scanFuel ic atoms fuel (off + 1) rest
    | some r =>
      if s.length - r.length == 0 then
        match s with
        | [] => [(off, [])]
        | _ :: rest => (off, []) :: scanFuel ic atoms fuel (off + 1) rest
      else
        (off, s.take (s.length - r.length)) ::
          scanFuel ic atoms fuel (off + (s.length - r.length)) (s.drop (s.length - r.length))

/-- All non-overlapping matches of one pattern, in left-to-right order. -/
def scanPattern (p : Pattern) (s : List Char) : List (Nat × List Char) :=
  scanFuel p.ignoreCase p.atoms (s.length + 1) 0 s

/-- Modelled from the spec: `scan` iterates the fixed pattern list in order
and collects every pattern's matches, tagging each Finding with the
pattern's index and the constant `secret_type` label. -/
def scanAll : List Pattern → Nat → List Char → List Finding
  | [], _, _ => []
  | p :: ps, j, s =>
    (scanPattern p s).map (fun m => ⟨j, m.1, m.2, secret_type⟩) ++ scanAll ps (j + 1) s

/-- `scan(text) → sequence of Finding` of the spec, over the source denylist. -/
def scan (s : List Char) : List Finding := scanAll denylist 0 s

/-- The token part `api[_-]?key` of pattern 4, used to state the general
key-value shape. -/
def apiKeyTokenAtoms : List Atom :=
  lits "api" ++ [Atom.opt underscoreDashClass] ++ lits "key"

/-- The key-value tail `['"\s]*[:=]['"\s]*[A-Za-z0-9_-]{20,}` shared by
patterns 4 and 5. -/
def keyValueTailAtoms : List Atom :=
  [Atom.star quoteSpaceClass, Atom.cls sepClass, Atom.star quoteSpaceClass,
   Atom.rep wordDashClass 20]

/-- The input `"sk-ant-api03-" + "A"×95`. -/
def c1Input : List Char := "sk-ant-api03-".data ++ List.replicate 95 'A'

/-- The input `"sk-" + "a"×47`, one character short of pattern 2's threshold. -/
def c2ShortInput : List Char := "sk-".data ++ List.replicate 47 'a'

/-- The input `"sk-" + "a"×48`, exactly at pattern 2's threshold. -/
def c2LongInput : List Char := "sk-".data ++ List.replicate 48 'a'

/-- The input `API_KEY: "abcdEFGH12345678901234"` (22 value characters). -/
def c3Input : List Char := "API_KEY: \"abcdEFGH12345678901234\"".data

/-- An `apikey`-form credential, on which patterns 4 and 5 both match. -/
def dupInput : List Char := "apikey: aaaaaaaaaaaaaaaaaaaa".data

/-- An input matching pattern 2 (at offset 0) and pattern 4 (at offset 52). -/
def c5Input : List Char :=
  "sk-".data ++ List.replicate 48 'a' ++ " api_key: bbbbbbbbbbbbbbbbbbbb".data

/-- Pattern 1's prefix in upper case, followed by 95 word characters. -/
def c7UpperAnthropic : List Char := "SK-ANT-API03-".data ++ List.replicate 95 'A'

/-- Pattern 2's prefix in upper case, followed by 48 alphanumerics. -/
def c7UpperSk : List Char := "SK-".data ++ List.replicate 48 'a'

/-- Pattern 3's prefix in upper case, followed by 48 alphanumerics. -/
def c7UpperPa : List Char := "PA-".data ++ List.replicate 48 'a'

/-- An upper-case `APIKEY` key-value credential (20 value characters). -/
def c7UpperApiKey : List Char := "APIKEY= \"ABCDEFGHIJKLMNOPQRST\"".data

end SecretsDetector

namespace SecretsDetector

/-! ## The declarative matching relation

`MatchRel ic as s r` states that the atom sequence `as` can match a prefix of
`s` leaving the suffix `r` (nondeterministically, irrespective of the
engine's greedy preference order).  It is proved equivalent in matchability
to the executable `matchAtoms`. -/

inductive MatchRel (ic : Bool) : List Atom → List Char → List Char → Prop where
  | nil (s : List Char) : MatchRel ic [] s s
  | lit {a c : Char} {as : List Atom} {s r : List Char} :
      litMatch ic a c = true → MatchRel ic as s r → MatchRel ic (Atom.lit a :: as) (c :: s) r
  | cls {p : Char → Bool} {c : Char} {as : List Atom} {s r : List Char} :
      p c = true → MatchRel ic as s r → MatchRel ic (Atom.cls p :: as) (c :: s) r
  | optSkip {p : Char → Bool} {as : List Atom} {s r : List Char} :
      MatchRel ic as s r → MatchRel ic (Atom.opt p :: as) s r
  | optTake {p : Char → Bool} {c : Char} {as : List Atom} {s r : List Char} :
      p c = true → MatchRel ic as s r → MatchRel ic (Atom.opt p :: as) (c :: s) r
  | star {p : Char → Bool} {as : List Atom} {u s r : List Char} :
      (∀ x ∈ u, p x = true) → MatchRel ic as s r →
      MatchRel ic (Atom.star p :: as) (u ++ s) r
  | rep {p : Char → Bool} {n : Nat} {as : List Atom} {u s r : List Char} :
      (∀ x ∈ u, p x = true) → n ≤ u.length → MatchRel ic as s r →
      MatchRel ic (Atom.rep p n :: as) (u ++ s) r

theorem mem_descList {k m lo : Nat} : k ∈ descList m lo ↔ lo ≤ k ∧ k ≤ m := by
  unfold descList
  simp only [List.mem_map, List.mem_range]
  constructor
  · rintro ⟨j, hj, rfl⟩; omega
  · rintro ⟨h1, h2⟩; exact ⟨m - k, by omega, by omega⟩

theorem firstSome_isSome_iff {f : List Char → Option (List Char)} {s : List Char}
    {ks : List Nat} :
    (firstSome f s ks).isSome = true ↔ ∃ k ∈ ks, (f (List.drop k s)).isSome = true := by
  unfold firstSome
  induction ks with
  | nil => simp
  | cons k ks ih =>
    simp only [List.filterMap_cons]
    cases h : f (List.drop k s) with
    | none => simp [h, ih]
    | some r => simp [h]

theorem firstSome_eq_some {f : List Char → Option (List Char)} {s r : List Char}
    {ks : List Nat} (h : firstSome f s ks = some r) :
    ∃ k ∈ ks, f (List.drop k s) = some r := by
  unfold firstSome at h
  have hr : r ∈ (ks.filterMap (fun k => f (List.drop k s))) := by
    cases hl : ks.filterMap (fun k => f (List.drop k s)) with
    | nil => rw [hl] at h; simp at h
    | cons a t => rw [hl] at h; simp at h; simp [hl, h]
  rcases List.mem_filterMap.mp hr with ⟨k, hk, hfk⟩
  exact ⟨k, hk, hfk⟩

theorem takeWhile_append_of_all {p : Char → Bool} {u : List Char}
    (hu : ∀ x ∈ u, p x = true) (s : List Char) :
    (u ++ s).takeWhile p = u ++ s.takeWhile p := by
  induction u with
  | nil => rfl
  | cons c u ih =>
    have hc : p c = true := hu c (by simp)
    simp only [List.cons_append, List.takeWhile_cons, hc, if_true]
    rw [ih (fun x hx => hu x (by simp [hx]))]

theorem length_le_takeWhile_append {p : Char → Bool} (u s : List Char)
    (hu : ∀ x ∈ u, p x = true) :
    u.length ≤ ((u ++ s).takeWhile p).length := by
  rw [takeWhile_append_of_all hu]
  simp

end SecretsDetector

namespace SecretsDetector

theorem length_takeWhile_le' {p : Char → Bool} (s : List Char) :
    (s.takeWhile p).length ≤ s.length := by
  induction s with
  | nil => simp
  | cons c rest ih =>
    rw [List.takeWhile_cons]
    by_cases hc : p c = true
    · simp only [hc, if_true, List.length_cons]; omega
    · simp only [hc, if_false]; simp

theorem prop_of_mem_take_le_takeWhile {p : Char → Bool} {s : List Char} {k : Nat}
    (hk : k ≤ (s.takeWhile p).length) {x : Char} (hx : x ∈ s.take k) : p x = true := by
  rcases List.takeWhile_prefix (l := s) (p := p) with ⟨t, ht⟩
  rw [← ht, List.take_append_of_le_length hk] at hx
  exact List.mem_takeWhile_imp (List.mem_of_mem_take hx)

/-- Completeness of the executable matcher: any declarative match makes
`matchAtoms` succeed. -/
theorem matchAtoms_isSome_of_rel {ic : Bool} {as : List Atom} {s r : List Char}
    (h : MatchRel ic as s r) : (matchAtoms ic as s).isSome = true := by
  induction h with
  | nil s => simp [matchAtoms]
  | lit hlit _ ih => simp [matchAtoms, hlit, ih]
  | cls hp _ ih => simp [matchAtoms, hp, ih]
  | optSkip h ih =>
    rename_i p as s r
    cases s with
    | nil => simpa [matchAtoms] using ih
    | cons c rest =>
      by_cases hc : p c = true
      · simp only [matchAtoms, hc, if_true]
        cases hm : matchAtoms ic as rest with
        | some r' => simp
        | none => simpa [hm] using ih
      · simpa [matchAtoms, hc] using ih
  | optTake hc h ih =>
    rename_i p c as s r
    cases hm : matchAtoms ic as s with
    | some r' => simp [matchAtoms, hc, hm]
    | none => rw [hm] at ih; simp at ih
  | star hu h ih =>
    rename_i p as u s r
    simp only [matchAtoms]
    rw [firstSome_isSome_iff]
    refine ⟨u.length, mem_descList.mpr ⟨Nat.zero_le _, length_le_takeWhile_append u s hu⟩, ?_⟩
    rw [List.drop_left]
    exact ih
  | rep hu hn h ih =>
    rename_i p n as u s r
    have hlen : n ≤ ((u ++ s).takeWhile p).length :=
      le_trans hn (length_le_takeWhile_append u s hu)
    simp only [matchAtoms, if_pos hlen]
    rw [firstSome_isSome_iff]
    refine ⟨u.length, mem_descList.mpr ⟨hn, length_le_takeWhile_append u s hu⟩, ?_⟩
    rw [List.drop_left]
    exact ih

/-- Soundness of the executable matcher: a successful `matchAtoms` run is a
declarative match. -/
theorem rel_of_matchAtoms {ic : Bool} : ∀ {as : List Atom} {s r : List Char},
    matchAtoms ic as s = some r → MatchRel ic as s r := by
  intro as
  induction as with
  | nil =>
    intro s r h
    simp only [matchAtoms, Option.some.injEq] at h
    subst h; exact MatchRel.nil s
  | cons a as ih =>
    intro s r h
    cases a with
    | lit a =>
      cases s with
      | nil => simp [matchAtoms] at h
      | cons c rest =>
        simp only [matchAtoms] at h
        by_cases hc : litMatch ic a c = true
        · rw [if_pos hc] at h; exact MatchRel.lit hc (ih h)
        · rw [if_neg hc] at h; simp at h
    | cls p =>
      cases s with
      | nil => simp [matchAtoms] at h
      | cons c rest =>
        simp only [matchAtoms] at h
        by_cases hc : p c = true
        · rw [if_pos hc] at h; exact MatchRel.cls hc (ih h)
        · rw [if_neg hc] at h; simp at h
    | opt p =>
      cases s with
      | nil =>
        simp only [matchAtoms] at h
        exact MatchRel.optSkip (ih h)
      | cons c rest =>
        simp only [matchAtoms] at h
        by_cases hc : p c = true
        · rw [if_pos hc] at h
          cases hm : matchAtoms ic as rest with
          | some r0 =>
            rw [hm] at h
            simp only [Option.some.injEq] at h
            subst h
            exact MatchRel.optTake hc (ih hm)
          | none =>
            rw [hm] at h
            exact MatchRel.optSkip (ih h)
        · rw [if_neg hc] at h
          exact MatchRel.optSkip (ih h)
    | star p =>
      simp only [matchAtoms] at h
      rcases firstSome_eq_some h with ⟨k, hk, hfk⟩
      rcases mem_descList.mp hk with ⟨-, hkm⟩
      have hall : ∀ x ∈ s.take k, p x = true := fun x hx =>
        prop_of_mem_take_le_takeWhile hkm hx
      have hrel := ih hfk
      have hsplit := (List.take_append_drop k s).symm
      rw [hsplit]
      exact MatchRel.star hall hrel
    | rep p n =>
      simp only [matchAtoms] at h
      by_cases hn : n ≤ (s.takeWhile p).length
      · rw [if_pos hn] at h
        rcases firstSome_eq_some h with ⟨k, hk, hfk⟩
        rcases mem_descList.mp hk with ⟨hnk, hkm⟩
        have hall : ∀ x ∈ s.take k, p x = true := fun x hx =>
          prop_of_mem_take_le_takeWhile hkm hx
        have hks : k ≤ s.length := le_trans hkm (length_takeWhile_le' s)
        have hlen : n ≤ (s.take k).length := by
          rw [List.length_take]; omega
        have hrel := ih hfk
        have hsplit := (List.take_append_drop k s).symm
        rw [hsplit]
        exact MatchRel.rep hall hlen hrel
      · rw [if_neg hn] at h; simp at h

end SecretsDetector

namespace SecretsDetector

/-- A declarative match is preserved when more text is appended on the
right (the patterns are unanchored and contain no end-sensitive construct). -/
theorem MatchRel.append_right {ic : Bool} {as : List Atom} {s r v : List Char}
    (h : MatchRel ic as s r) : MatchRel ic as (s ++ v) (r ++ v) := by
  induction h with
  | nil s => exact MatchRel.nil _
  | lit hl _ ih => exact MatchRel.lit hl ih
  | cls hp _ ih => exact MatchRel.cls hp ih
  | optSkip _ ih => exact MatchRel.optSkip ih
  | optTake hp _ ih => exact MatchRel.optTake hp ih
  | star hu _ ih => rw [List.append_assoc]; exact MatchRel.star hu ih
  | rep hu hn _ ih => rw [List.append_assoc]; exact MatchRel.rep hu hn ih

/-- Declarative matches compose across atom-sequence concatenation. -/
theorem MatchRel.compose {ic : Bool} {as1 as2 : List Atom} {s m r : List Char}
    (h1 : MatchRel ic as1 s m) (h2 : MatchRel ic as2 m r) :
    MatchRel ic (as1 ++ as2) s r := by
  revert h2
  induction h1 with
  | nil s => intro h2; exact h2
  | lit hl _ ih => intro h2; exact MatchRel.lit hl (ih h2)
  | cls hp _ ih => intro h2; exact MatchRel.cls hp (ih h2)
  | optSkip _ ih => intro h2; exact MatchRel.optSkip (ih h2)
  | optTake hp _ ih => intro h2; exact MatchRel.optTake hp (ih h2)
  | star hu _ ih => intro h2; exact MatchRel.star hu (ih h2)
  | rep hu hn _ ih => intro h2; exact MatchRel.rep hu hn (ih h2)

/-- A successful match starting anywhere in `s` makes the per-pattern scan
nonempty (the scan reports the leftmost match, which need not be this one). -/
theorem scanFuel_ne_nil {ic : Bool} {atoms : List Atom} :
    ∀ {fuel : Nat} {s : List Char} {off i : Nat},
      s.length + 1 ≤ fuel → (matchAtoms ic atoms (s.drop i)).isSome = true →
      scanFuel ic atoms fuel off s ≠ [] := by
  intro fuel
  induction fuel with
  | zero => intro s off i h _; omega
  | succ fuel ih =>
    intro s off i hf hm
    cases hma : matchAtoms ic atoms s with
    | some r =>
      simp only [scanFuel, hma]
      by_cases hlen : (s.length - r.length == 0) = true
      · rw [if_pos hlen]; cases s <;> simp
      · rw [if_neg hlen]; simp
    | none =>
      cases s with
      | nil =>
        rw [List.drop_nil] at hm
        rw [hma] at hm
        simp at hm
      | cons c rest =>
        simp only [scanFuel, hma]
        cases i with
        | zero =>
          rw [List.drop_zero, hma] at hm
          simp at hm
        | succ i' =>
          rw [List.drop_succ_cons] at hm
          exact ih (by simp at hf ⊢; omega) hm

/-- If no position of `s` admits a match, the per-pattern scan is empty. -/
theorem scanFuel_eq_nil {ic : Bool} {atoms : List Atom} :
    ∀ {fuel : Nat} {s : List Char} {off : Nat},
      (∀ i ≤ s.length, matchAtoms ic atoms (s.drop i) = none) →
      scanFuel ic atoms fuel off s = [] := by
  intro fuel
  induction fuel with
  | zero => intro s off _; rfl
  | succ fuel ih =>
    intro s off h
    have h0 : matchAtoms ic atoms s = none := by
      have := h 0 (by omega)
      rwa [List.drop_zero] at this
    simp only [scanFuel, h0]
    cases s with
    | nil => rfl
    | cons c rest =>
      apply ih
      intro i hi
      have := h (i + 1) (by simp; omega)
      rwa [List.drop_succ_cons] at this

/-- A nonempty per-pattern scan exhibits a matching position. -/
theorem exists_match_of_scanFuel_ne_nil {ic : Bool} {atoms : List Atom} :
    ∀ {fuel : Nat} {s : List Char} {off : Nat},
      scanFuel ic atoms fuel off s ≠ [] →
      ∃ i, (matchAtoms ic atoms (s.drop i)).isSome = true := by
  intro fuel
  induction fuel with
  | zero => intro s off h; simp [scanFuel] at h
  | succ fuel ih =>
    intro s off h
    cases hma : matchAtoms ic atoms s with
    | some r => exact ⟨0, by rw [List.drop_zero, hma]; rfl⟩
    | none =>
      cases s with
      | nil => simp [scanFuel, hma] at h
      | cons c rest =>
        simp only [scanFuel, hma] at h
        rcases ih h with ⟨i, hi⟩
        exact ⟨i + 1, by rwa [List.drop_succ_cons]⟩

/-- Every Finding collected by `scanAll` carries the constant label. -/
theorem secretType_of_mem_scanAll :
    ∀ {ps : List Pattern} {j : Nat} {s : List Char} {f : Finding},
      f ∈ scanAll ps j s → f.secretType = secret_type := by
  intro ps
  induction ps with
  | nil => intro j s f h; simp [scanAll] at h
  | cons p ps ih =>
    intro j s f h
    simp only [scanAll, List.mem_append, List.mem_map] at h
    rcases h with ⟨m, _, rfl⟩ | h
    · rfl
    · exact ih h

/-- A pattern whose own scan is nonempty contributes a Finding carrying its
denylist index. -/
theorem exists_mem_scanAll_of_get :
    ∀ {ps : List Pattern} {k : Nat} (hk : k < ps.length) {j : Nat} {s : List Char},
      scanPattern (ps.get ⟨k, hk⟩) s ≠ [] →
      ∃ f ∈ scanAll ps j s, f.patternIdx = j + k := by
  intro ps
  induction ps with
  | nil => intro k hk; simp at hk
  | cons p ps ih =>
    intro k hk j s hne
    cases k with
    | zero =>
      cases hsp : scanPattern p s with
      | nil => exact absurd hsp hne
      | cons m ms =>
        refine ⟨⟨j, m.1, m.2, secret_type⟩, ?_, by simp⟩
        simp [scanAll, hsp]
    | succ k' =>
      have hk' : k' < ps.length := by simpa using hk
      rcases ih hk' (j := j + 1) (s := s) (by simpa using hne) with ⟨f, hf, hidx⟩
      refine ⟨f, ?_, by omega⟩
      simp only [scanAll, List.mem_append]
      exact Or.inr hf

/-- A nonempty aggregate scan exhibits a pattern with a nonempty scan. -/
theorem exists_pattern_of_scanAll_ne_nil :
    ∀ {ps : List Pattern} {j : Nat} {s : List Char},
      scanAll ps j s ≠ [] → ∃ p ∈ ps, scanPattern p s ≠ [] := by
  intro ps
  induction ps with
  | nil => intro j s h; simp [scanAll] at h
  | cons p ps ih =>
    intro j s h
    simp only [scanAll] at h
    by_cases hsp : scanPattern p s = []
    · have : scanAll ps (j + 1) s ≠ [] := by
        intro hn; apply h; simp [hsp, hn]
      rcases ih this with ⟨q, hq, hqs⟩
      exact ⟨q, by simp [hq], hqs⟩
    · exact ⟨p, by simp, hsp⟩

/-- A pattern of the list with a nonempty scan makes the aggregate scan
nonempty. -/
theorem scanAll_ne_nil_of_mem :
    ∀ {ps : List Pattern} {p : Pattern} {j : Nat} {s : List Char},
      p ∈ ps → scanPattern p s ≠ [] → scanAll ps j s ≠ [] := by
  intro ps
  induction ps with
  | nil => intro p j s h; simp at h
  | cons q ps ih =>
    intro p j s hp hne
    rcases List.mem_cons.mp hp with rfl | hp
    · cases hsp : scanPattern p s with
      | nil => exact absurd hsp hne
      | cons m ms => simp [scanAll, hsp]
    · intro hnil
      simp only [scanAll, List.append_eq_nil] at hnil
      exact ih hp hne (s := s) (j := j + 1) hnil.2

end SecretsDetector

namespace SecretsDetector

theorem matchAtoms_lit_cons {ic : Bool} {a : Char} {as : List Atom} {s r : List Char} :
    matchAtoms ic (Atom.lit a :: as) s = some r ↔
      ∃ c rest, s = c :: rest ∧ litMatch ic a c = true ∧ matchAtoms ic as rest = some r := by
  cases s with
  | nil => simp [matchAtoms]
  | cons c rest =>
    have hunf : matchAtoms ic (Atom.lit a :: as) (c :: rest) =
        if litMatch ic a c = true then matchAtoms ic as rest else none := rfl
    by_cases hc : litMatch ic a c = true
    · rw [hunf, if_pos hc]
      constructor
      · intro h; exact ⟨c, rest, rfl, hc, h⟩
      · rintro ⟨c', rest', heq, hlm, hm⟩
        injection heq with h1 h2
        subst h1; subst h2; exact hm
    · rw [hunf, if_neg hc]
      constructor
      · intro h; simp at h
      · rintro ⟨c', rest', heq, hlm, hm⟩
        injection heq with h1 h2
        subst h1; exact absurd hlm hc

theorem matchAtoms_opt_cons_neg {ic : Bool} {p : Char → Bool} {as : List Atom}
    {c : Char} {rest : List Char} (hc : p c = false) :
    matchAtoms ic (Atom.opt p :: as) (c :: rest) = matchAtoms ic as (c :: rest) := by
  simp [matchAtoms, hc]

theorem apikeyPattern_atoms_eq :
    apikeyPattern.atoms =
      Atom.lit 'a' :: Atom.lit 'p' :: Atom.lit 'i' :: Atom.lit 'k' :: Atom.lit 'e' ::
        Atom.lit 'y' :: keyValueTailAtoms := rfl

theorem apiKeyPattern_atoms_eq :
    apiKeyPattern.atoms =
      Atom.lit 'a' :: Atom.lit 'p' :: Atom.lit 'i' :: Atom.opt underscoreDashClass ::
        Atom.lit 'k' :: Atom.lit 'e' :: Atom.lit 'y' :: keyValueTailAtoms := rfl

theorem apiKeyPattern_atoms_decomp :
    apiKeyPattern.atoms = apiKeyTokenAtoms ++ keyValueTailAtoms := rfl

/-- If every pattern's own scan is empty, the aggregate scan is empty. -/
theorem scanAll_eq_nil :
    ∀ {ps : List Pattern} {j : Nat} {s : List Char},
      (∀ p ∈ ps, scanPattern p s = []) → scanAll ps j s = [] := by
  intro ps
  induction ps with
  | nil => intro j s _; rfl
  | cons p ps ih =>
    intro j s h
    simp only [scanAll]
    rw [h p (by simp)]
    simp only [List.map_nil, List.nil_append]
    exact ih (fun q hq => h q (by simp [hq]))

/-- A pattern of the denylist that matches somewhere in `s` contributes a
Finding carrying its index to `scan s`. -/
theorem scan_has_finding_of_match (s : List Char) (k : Nat) (hk : k < denylist.length)
    (hm : ∃ i, (matchAtoms (denylist.get ⟨k, hk⟩).ignoreCase
        (denylist.get ⟨k, hk⟩).atoms (List.drop i s)).isSome = true) :
    ∃ f ∈ scan s, f.patternIdx = k := by
  rcases hm with ⟨i, hi⟩
  have hne : scanPattern (denylist.get ⟨k, hk⟩) s ≠ [] :=
    scanFuel_ne_nil (le_refl _) hi
  rcases exists_mem_scanAll_of_get hk (j := 0) hne with ⟨f, hf, hidx⟩
  exact ⟨f, hf, by simpa using hidx⟩

end SecretsDetector

namespace SecretsDetector

/-- C1: for the input `"sk-ant-api03-" + "A"×95`, `scan` returns exactly one
Finding, and it comes from pattern 1 (denylist index 0): no other pattern
matches this input anywhere. -/
theorem anthropic_key_single_finding :
    scan c1Input = [⟨0, 0, c1Input, secret_type⟩] := by decide

/-- C2: pattern 2's length threshold is exactly 48: `"sk-" + "a"×47` yields
no pattern-2 Finding, while `"sk-" + "a"×48` yields exactly one pattern-2
Finding. -/
theorem pattern2_threshold_48 :
    (scan c2ShortInput).filter (fun f => f.patternIdx == 1) = [] ∧
    (scan c2LongInput).filter (fun f => f.patternIdx == 1) =
      [⟨1, 0, c2LongInput, secret_type⟩] := by
  constructor <;> decide

/-- C4: an input in which no pattern matches at any position yields the
empty Finding sequence (zero matches is a normal outcome). -/
theorem no_match_empty_scan (s : List Char)
    (h : ∀ p ∈ denylist, ∀ i ≤ s.length,
      matchAtoms p.ignoreCase p.atoms (List.drop i s) = none) :
    scan s = [] :=
  scanAll_eq_nil (fun p hp => scanFuel_eq_nil (h p hp))

/-- Witness for C4 at the concrete input `hello world, no secrets here.`. -/
theorem no_match_empty_scan_witness :
    scan "hello world, no secrets here.".data = [] :=
  no_match_empty_scan "hello world, no secrets here.".data (by decide)

/-- C5: patterns are evaluated independently, not mutually exclusively: if
two distinct patterns each match somewhere in the input, `scan` contains at
least one Finding for each of them. -/
theorem patterns_independent (s : List Char) (j k : Nat)
    (hj : j < denylist.length) (hk : k < denylist.length) (_hjk : j ≠ k)
    (hmj : ∃ i, (matchAtoms (denylist.get ⟨j, hj⟩).ignoreCase
        (denylist.get ⟨j, hj⟩).atoms (List.drop i s)).isSome = true)
    (hmk : ∃ i, (matchAtoms (denylist.get ⟨k, hk⟩).ignoreCase
        (denylist.get ⟨k, hk⟩).atoms (List.drop i s)).isSome = true) :
    (∃ f ∈ scan s, f.patternIdx = j) ∧ (∃ f ∈ scan s, f.patternIdx = k) :=
  ⟨scan_has_finding_of_match s j hj hmj, scan_has_finding_of_match s k hk hmk⟩

/-- Witness for C5: `c5Input` matches patterns 2 and 4, and `scan` reports a
Finding for each. -/
theorem patterns_independent_witness :
    (∃ f ∈ scan c5Input, f.patternIdx = 1) ∧ (∃ f ∈ scan c5Input, f.patternIdx = 3) :=
  patterns_independent c5Input 1 3 (by decide) (by decide) (by decide)
    ⟨0, by decide⟩ ⟨52, by decide⟩

/-- C8: every Finding of every scan carries the constant category label
`API Credentials`; no other label value is ever attached. -/
theorem findings_constant_label (s : List Char) (f : Finding) (hf : f ∈ scan s) :
    f.secretType = secret_type :=
  secretType_of_mem_scanAll hf

/-- Witness for C8 at a concrete Finding of a concrete scan. -/
theorem findings_constant_label_witness :
    (⟨3, 0, dupInput, secret_type⟩ : Finding).secretType = secret_type :=
  findings_constant_label dupInput ⟨3, 0, dupInput, secret_type⟩ (by decide)

/-- C9: `scan` is a deterministic pure function of the input text and the
fixed pattern list: two invocations on the same input are identical, and
the result is exactly the fold of the immutable `denylist`. -/
theorem scan_deterministic (s : List Char) :
    scan s = scan s ∧ scan s = scanAll denylist 0 s :=
  ⟨rfl, rfl⟩

end SecretsDetector

namespace SecretsDetector

/-- C3: the input `API_KEY: "abcdEFGH12345678901234"` yields exactly one
pattern-4 Finding; in general, pattern 4 matches every input of the
key-value shape — any case variant of the `api[_-]?key` token, then any
quote/whitespace padding, a `:` or `=` separator, more padding, and a value
of 20 or more characters from `[A-Za-z0-9_-]`. -/
theorem pattern4_key_value_match :
    (scan c3Input).filter (fun f => f.patternIdx == 3) =
      [⟨3, 0, "API_KEY: \"abcdEFGH12345678901234".data, secret_type⟩] ∧
    ∀ (t q1 q2 v : List Char) (c : Char),
      matchAtoms true apiKeyTokenAtoms t = some [] →
      (∀ x ∈ q1, quoteSpaceClass x = true) →
      sepClass c = true →
      (∀ x ∈ q2, quoteSpaceClass x = true) →
      (∀ x ∈ v, wordDashClass x = true) →
      20 ≤ v.length →
      ∃ f ∈ scan (t ++ (q1 ++ (c :: (q2 ++ v)))), f.patternIdx = 3 := by
  constructor
  · decide
  · intro t q1 q2 v c htok hq1 hsep hq2 hv hlen
    have hrtok : MatchRel true apiKeyTokenAtoms t [] := rel_of_matchAtoms htok
    have hrtail : MatchRel true keyValueTailAtoms (q1 ++ (c :: (q2 ++ v))) [] := by
      show MatchRel true (Atom.star quoteSpaceClass :: [Atom.cls sepClass,
        Atom.star quoteSpaceClass, Atom.rep wordDashClass 20]) (q1 ++ (c :: (q2 ++ v))) []
      apply MatchRel.star hq1
      apply MatchRel.cls hsep
      apply MatchRel.star hq2
      have hrep : MatchRel true [Atom.rep wordDashClass 20] (v ++ []) [] :=
        MatchRel.rep hv hlen (MatchRel.nil [])
      rwa [List.append_nil] at hrep
    have hfull : MatchRel true apiKeyPattern.atoms (t ++ (q1 ++ (c :: (q2 ++ v)))) [] := by
      rw [apiKeyPattern_atoms_decomp]
      have h1 := hrtok.append_right (v := q1 ++ (c :: (q2 ++ v)))
      simp only [List.nil_append] at h1
      exact h1.compose hrtail
    have hsome := matchAtoms_isSome_of_rel hfull
    exact scan_has_finding_of_match _ 3 (by decide) ⟨0, hsome⟩

/-- Witness for C3's general part at the token variant `Api-Key`, a quote
before and a space-quote after the `=` separator, and a 20-character value. -/
theorem pattern4_key_value_match_witness :
    ∃ f ∈ scan ("Api-Key".data ++ (['\''] ++ ('=' :: ([' '] ++ List.replicate 20 'x')))),
      f.patternIdx = 3 :=
  pattern4_key_value_match.2 "Api-Key".data ['\''] [' '] (List.replicate 20 'x') '='
    (by decide) (by decide) (by decide) (by decide) (by decide) (by decide)

/-- C6: every string matched by pattern 5 is matched by pattern 4 leaving
the identical remainder (pattern 4's `[_-]?` separator is optional), and
`scan` does not deduplicate: an `apikey`-form credential yields two
Findings, one from pattern 4 and one from pattern 5. -/
theorem pattern5_subsumed_by_pattern4 :
    (∀ (s r : List Char), matchAtoms true apikeyPattern.atoms s = some r →
      matchAtoms true apiKeyPattern.atoms s = some r) ∧
    scan dupInput = [⟨3, 0, dupInput, secret_type⟩, ⟨4, 0, dupInput, secret_type⟩] := by
  constructor
  · intro s r h
    rw [apikeyPattern_atoms_eq] at h
    obtain ⟨c1, s1, rfl, ha1, h1⟩ := matchAtoms_lit_cons.mp h
    obtain ⟨c2, s2, rfl, ha2, h2⟩ := matchAtoms_lit_cons.mp h1
    obtain ⟨c3, s3, rfl, ha3, h3⟩ := matchAtoms_lit_cons.mp h2
    obtain ⟨c4, s4, heq4, ha4, h4⟩ := matchAtoms_lit_cons.mp h3
    subst heq4
    have hud : underscoreDashClass c4 = false := by
      cases hcu : underscoreDashClass c4 with
      | false => rfl
      | true =>
        exfalso
        have hor : c4 = '_' ∨ c4 = '-' := by
          simpa [underscoreDashClass] using hcu
        rcases hor with rfl | rfl
        · exact absurd ha4 (by decide)
        · exact absurd ha4 (by decide)
    rw [apiKeyPattern_atoms_eq]
    refine matchAtoms_lit_cons.mpr ⟨c1, _, rfl, ha1, ?_⟩
    refine matchAtoms_lit_cons.mpr ⟨c2, _, rfl, ha2, ?_⟩
    refine matchAtoms_lit_cons.mpr ⟨c3, _, rfl, ha3, ?_⟩
    rw [matchAtoms_opt_cons_neg hud]
    exact matchAtoms_lit_cons.mpr ⟨c4, s4, rfl, ha4, h4⟩
  · decide

/-- Witness for C6's subsumption at a concrete `apikey` credential. -/
theorem pattern5_subsumed_by_pattern4_witness :
    matchAtoms true apiKeyPattern.atoms "apikey=\"aaaaaaaaaaaaaaaaaaaa\"".data =
      some ['"'] :=
  pattern5_subsumed_by_pattern4.1 "apikey=\"aaaaaaaaaaaaaaaaaaaa\"".data ['"']
    (by decide)

/-- C7: the vendor prefixes of patterns 1, 2 and 3 are case-sensitive —
those patterns reject any input whose prefix starts with the upper-case
letter, and the concrete upper-case variants yield no Finding of index 0, 1
or 2 — while patterns 4 and 5 (indices 3 and 4) are case-insensitive and
both fire on an upper-case `APIKEY` credential. -/
theorem vendor_prefixes_case_sensitive :
    (∀ t : List Char, matchAtoms false anthropicKeyPattern.atoms ('S' :: t) = none) ∧
    (∀ t : List Char, matchAtoms false skKeyPattern.atoms ('S' :: t) = none) ∧
    (∀ t : List Char, matchAtoms false paKeyPattern.atoms ('P' :: t) = none) ∧
    (scan c7UpperAnthropic).filter (fun f => decide (f.patternIdx < 3)) = [] ∧
    (scan c7UpperSk).filter (fun f => decide (f.patternIdx < 3)) = [] ∧
    (scan c7UpperPa).filter (fun f => decide (f.patternIdx < 3)) = [] ∧
    (scan c7UpperApiKey).map (fun f => f.patternIdx) = [3, 4] := by
  refine ⟨fun t => rfl, fun t => rfl, fun t => rfl, ?_, ?_, ?_, ?_⟩ <;> decide

/-- C10: the patterns are unanchored, so detection is monotone under
embedding: a nonempty scan of `t` stays nonempty for `u ++ t ++ v`. -/
theorem scan_monotone_embedding (u t v : List Char) (h : scan t ≠ []) :
    scan (u ++ t ++ v) ≠ [] := by
  rcases exists_pattern_of_scanAll_ne_nil h with ⟨p, hp, hps⟩
  rcases exists_match_of_scanFuel_ne_nil hps with ⟨i, hi⟩
  have hi' : (matchAtoms p.ignoreCase p.atoms (List.drop (min i t.length) t)).isSome
      = true := by
    rcases Nat.le_total i t.length with hle | hle
    · rwa [Nat.min_eq_left hle]
    · rw [Nat.min_eq_right hle, List.drop_length]
      rwa [List.drop_eq_nil_of_le hle] at hi
  obtain ⟨r, hr⟩ := Option.isSome_iff_exists.mp hi'
  have hrel2 := (rel_of_matchAtoms hr).append_right (v := v)
  have hsome2 := matchAtoms_isSome_of_rel hrel2
  have hkt : min i t.length ≤ t.length := Nat.min_le_right i t.length
  have hdrop : List.drop (u.length + min i t.length) (u ++ t ++ v)
      = List.drop (min i t.length) t ++ v := by
    rw [List.append_assoc, List.drop_append, List.drop_append_of_le_length hkt]
  have hsome3 : (matchAtoms p.ignoreCase p.atoms
      (List.drop (u.length + min i t.length) (u ++ t ++ v))).isSome = true := by
    rw [hdrop]; exact hsome2
  exact scanAll_ne_nil_of_mem hp (scanFuel_ne_nil (le_refl _) hsome3)

/-- Witness for C10: a credential detected in isolation stays detected when
embedded in surrounding text. -/
theorem scan_monotone_embedding_witness :
    scan ("some text ".data ++ dupInput ++ " more text".data) ≠ [] :=
  scan_monotone_embedding "some text ".data dupInput " more text".data (by decide)

end SecretsDetector
